import Mathlib

/-!
# Verification of the lekhika transliteration core

Shallow embedding of `src/core/src/lekhika_core.cpp` (khumnath/liblekhika).

Strings are modelled as `List Char`, i.e. sequences of Unicode code points.
This matches the C++ byte-level `std::string` code exactly on ASCII data
(all romanized input the engine is designed for), and matches the ICU
`UnicodeString` code-point iteration of the validator exactly; the only
byte-level test in the engine, the trailing-halant check on the UTF-8 bytes
`E0 A5 8D`, is equivalent to a final-code-point test on valid UTF-8.

`std::unordered_map` is modelled as an association list (`CMap`); its
`operator[]`, which inserts a default-constructed value on a missing key,
is modelled faithfully by `mapGet`, so that mutation of the engine's tables
by a lookup is observable in the model.  The C++ `transliterate` can fail
to terminate (its mask-restoration loop never ends when a mask
transliterates to the empty string), so the top-level model returns
`Option`, with `none` standing for that divergence.
-/

namespace Lekhika

/-- Model of `std::unordered_map<std::string, std::string>`: an association
list from strings to strings (keys unique in all states built here).  The
C++ iteration order of an `unordered_map` is unspecified; the model uses
insertion order. -/
abbrev CMap := List (List Char × List Char)

/-- Key lookup (models `unordered_map::find` / `count`). -/
def lookupA : CMap → List Char → Option (List Char)
| [], _ => none
| (k', v) :: rest, k => if k' == k then some v else lookupA rest k

/-- Key assignment `m[k] = v`: overwrite the existing entry or append a
new one. -/
def insertA : CMap → List Char → List Char → CMap
| [], k, v => [(k, v)]
| (k', v') :: rest, k, v =>
    if k' == k then (k, v) :: rest else (k', v') :: insertA rest k v

/-- Model of `unordered_map::operator[]` used as an rvalue: returns the
mapped value, inserting an empty value first when the key is absent. -/
def mapGet (m : CMap) (k : List Char) : List Char × CMap :=
  match lookupA m k with
  | some v => (v, m)
  | none => ([], insertA m k [])

/-- `tolower` over ASCII, as the C `tolower` behaves in the "C" locale. -/
def toLowerA (c : Char) : Char :=
  if 'A' ≤ c ∧ c ≤ 'Z' then Char.ofNat (c.toNat + 32) else c

/-- `std::isdigit` in the "C" locale. -/
def isDigitA (c : Char) : Bool := decide ('0' ≤ c ∧ c ≤ '9')

/-- `std::isalnum` in the "C" locale. -/
def isAlnumA (c : Char) : Bool :=
  isDigitA c || decide ('A' ≤ c ∧ c ≤ 'Z') || decide ('a' ≤ c ∧ c ≤ 'z')

/-- `Transliteration::Impl::isVowel`: membership of `tolower(c)` in "aeiou". -/
def isVowel (c : Char) : Bool :=
  let l := toLowerA c
  l == 'a' || l == 'e' || l == 'i' || l == 'o' || l == 'u'

/-- Whitespace trimmed by the TOML parsers (`" \t"`). -/
def isWS (c : Char) : Bool := c == ' ' || c == '\t'

/-- `line.erase(0, line.find_first_not_of(" \t"))`. -/
def trimStart (l : List Char) : List Char := l.dropWhile isWS

/-- `line.erase(line.find_last_not_of(" \t") + 1)`. -/
def trimEnd (l : List Char) : List Char := (l.reverse.dropWhile isWS).reverse

/-- Leading then trailing trim, in the order the C++ performs them. -/
def trimWS (l : List Char) : List Char := trimEnd (trimStart l)

/-- Split a list at the first occurrence of a character (models
`std::string::find(char)` plus taking the two sides). -/
def splitAtCh (d : Char) : List Char → Option (List Char × List Char)
| [] => none
| c :: rest =>
    if c == d then some ([], rest)
    else
      match splitAtCh d rest with
      | some (a, b) => some (c :: a, b)
      | none => none

/-- Split a list around the first occurrence of a sublist (models
`std::string::find(str)`): `some (a, b)` means the input is
`a ++ pat ++ b` and `pat` starts nowhere earlier. -/
def splitAtSub (pat : List Char) : List Char → Option (List Char × List Char)
| [] => if pat.isPrefixOf ([] : List Char) then some ([], []) else none
| c :: rest =>
    if pat.isPrefixOf (c :: rest) then some ([], (c :: rest).drop pat.length)
    else
      match splitAtSub pat rest with
      | some (a, b) => some (c :: a, b)
      | none => none

/-- Whether `pat` occurs as a contiguous sublist. -/
def containsSub (pat l : List Char) : Bool := (splitAtSub pat l).isSome

/-- `std::getline(stream, s, d)`-style splitting, as used on spaces,
slashes and newlines.  Produces the empty trailing piece which `getline`
would not, but every consumer of this function skips empty pieces, so the
behaviours agree. -/
def splitCh (d : Char) : List Char → List (List Char)
| [] => [[]]
| c :: rest =>
    if c == d then [] :: splitCh d rest
    else
      match splitCh d rest with
      | s :: ss => (c :: s) :: ss
      | [] => [[c]]

/-- The engine's configuration state: the two tables and the four feature
flags of `Transliteration::Impl` (all flags default `true` in the C++). -/
structure Cfg where
  charMap : CMap
  specialWords : CMap
  enableSmartCorrection : Bool
  enableAutoCorrect : Bool
  enableIndicNumbers : Bool
  enableSymbolsTransliteration : Bool

/-! ## Correction pipeline (`applyAutoCorrection`, `applySmartCorrection`,
`preprocess`) -/

/-- `Transliteration::Impl::applyAutoCorrection`: whole-word lookup in
`specialWords_`, identity when absent. -/
def applyAutoCorrection (sw : CMap) (word : List Char) : List Char :=
  match lookupA sw word with
  | some v => v
  | none => word

/-- Body of the `word.length() > 3` block of `applySmartCorrection`, with
`e0 .. e3` the last four characters of the word (last first), as the C++
reads them into `ec_0 .. ec_3` before the block mutates `word`. -/
def smartStage1Core (w : List Char) (e0 e1 e2 e3 : Char) : List Char :=
  let c0 := toLowerA e0
  let c1 := toLowerA e1
  let c2 := toLowerA e2
  let c3 := toLowerA e3
  let w1 :=
    if !isVowel c0 && c0 == 'y' then w.dropLast ++ ['e', 'e']
    else if !(c0 == 'a' && c1 == 'h' && c2 == 'h')
         && !(c0 == 'a' && c1 == 'n' && (c2 == 'k' || c2 == 'h' || c2 == 'r'))
         && !(c0 == 'a' && c1 == 'r' && ((c2 == 'd' && c3 == 'n') || (c2 == 't' && c3 == 'n'))) then
      if c0 == 'a' && (c1 == 'm' || (!isVowel c1 && !isVowel c3 && !(c1 == 'y') && !(c2 == 'e')))
      then w ++ ['a'] else w
    else w
  if c0 == 'i' && !isVowel c1 && !(c1 == 'r' && c2 == 'r') then w1.dropLast ++ ['e', 'e']
  else w1

/-- The `word.length() > 3` block of `applySmartCorrection`: the final-`y`,
schwa-insertion and trailing-`i` heuristics; words of length at most 3 are
left untouched by the block. -/
def smartStage1 (w : List Char) : List Char :=
  match w.reverse with
  | e0 :: e1 :: e2 :: e3 :: _ => smartStage1Core w e0 e1 e2 e3
  | _ => w

/-- Lookahead test of the `n`-to-`ng` loop: next character case-folds to
`k` or `g`. -/
def velarNext (rest : List Char) : Bool :=
  match rest.head? with
  | some d => toLowerA d == 'k' || toLowerA d == 'g'
  | none => false

/-- Body of the `n`-to-`ng` velar loop for positions `i ≥ 1`: an `n`
(case-folded) followed by `k`/`g` is replaced by the literal `"ng"`, and
the scan resumes at the following (velar) character. -/
def ngVelarGo : List Char → List Char
| [] => []
| c :: rest =>
    if toLowerA c == 'n' && velarNext rest then 'n' :: 'g' :: ngVelarGo rest
    else c :: ngVelarGo rest

/-- The whole `n`-to-`ng` velar loop.  The C++ guard `i > 0` exempts the
first character of the word, so the scan proper starts at position 1. -/
def ngVelarPass : List Char → List Char
| [] => []
| c :: rest => c :: ngVelarGo rest

/-- The `"ng"`-gemination `while (find)` loop.  `k` counts the characters
before the scan position in the current (already rewritten) string, giving
the `pos_ng >= 2` test; a successful rewrite resumes scanning just after
the inserted `"ngg"` (`find(pos + 3)`), a failed one scans on from the
next position. -/
def gemGo (k : Nat) : List Char → List Char
| 'n' :: 'g' :: rest =>
    if 2 ≤ k && (match rest.head? with | some v => isVowel v | none => false) then
      'n' :: 'g' :: 'g' :: gemGo (k + 3) rest
    else
      'n' :: 'g' :: gemGo (k + 2) rest
| c :: rest => c :: gemGo (k + 1) rest
| [] => []

/-- The final nasal loop: literal `n` before `T`/`D` becomes `N` (scan
resumes after the stop), literal `n` before `ch` (but not `chh`) becomes
the Devanagari `ञ्` (scan resumes at the `c`).  One fuel unit per loop
iteration; every iteration advances at least one position, so
`l.length` fuel always suffices. -/
def nasalGoF : Nat → List Char → List Char
| 0, l => l
| _ + 1, [] => []
| _ + 1, [c] => [c]
| fuel + 1, c :: d :: rest =>
    if c == 'n' then
      if d == 'T' || d == 'D' then 'N' :: d :: nasalGoF fuel rest
      else if d == 'c' then
        match rest with
        | 'h' :: ('h' :: _) => c :: nasalGoF fuel (d :: rest)
        | 'h' :: _ => 'ञ' :: '्' :: nasalGoF fuel (d :: rest)
        | _ => c :: nasalGoF fuel (d :: rest)
      else c :: nasalGoF fuel (d :: rest)
    else c :: nasalGoF fuel (d :: rest)

/-- The nasal loop at its natural fuel. -/
def nasalPass (l : List Char) : List Char := nasalGoF l.length l

/-- `Transliteration::Impl::applySmartCorrection`: the ordered heuristic
pipeline (the anusvara block is commented out in the source). -/
def applySmartCorrection (input : List Char) : List Char :=
  nasalPass (gemGo 0 (ngVelarPass (smartStage1 input)))

/-- `Transliteration::Impl::preprocess`: auto-correction with early return
when it changed the word, otherwise smart correction. -/
def preprocess (cfg : Cfg) (input : List Char) : List Char :=
  if cfg.enableAutoCorrect then
    let autoCorrected := applyAutoCorrection cfg.specialWords input
    if autoCorrected ≠ input then autoCorrected
    else if cfg.enableSmartCorrection then applySmartCorrection input else input
  else if cfg.enableSmartCorrection then applySmartCorrection input else input

/-! ## Segmenter / preprocessor -/

/-- Loop body of `preprocessInput`; `prev` is the previous character of
the ORIGINAL input (`input[i - 1]`), `none` at position 0. -/
def preprocessInputGo (cm : CMap) : Option Char → List Char → List Char
| _, [] => []
| prev, c :: rest =>
    if c == '*' then c :: preprocessInputGo cm (some c) rest
    else
      let boundary :=
        match prev with
        | some p => (c == '.' || c == '?' || (lookupA cm [c]).isSome)
                    && !isAlnumA c && !(p == ' ')
        | none => false
      if boundary then ' ' :: c :: preprocessInputGo cm (some c) rest
      else c :: preprocessInputGo cm (some c) rest

/-- `Transliteration::Impl::preprocessInput`: inserts a space before
punctuation-like boundary characters; `*` passes through untouched. -/
def preprocessInput (cm : CMap) (input : List Char) : List Char :=
  preprocessInputGo cm none input

/-- The mask token `"$-" + to_string(n) + "-$"`. -/
def maskStr (n : Nat) : List Char := '$' :: '-' :: (Nat.repr n).data ++ ['-', '$']

/-- The literal-masking `while (find("{"))` loop of `transliterate`.
`pre` is the part of `processed` before the resume index (already free of
unscanned braces), `rest` the part from the resume index on; one fuel unit
per loop iteration (each iteration strictly shrinks `rest`, so
`rest.length` fuel is always enough).  An unterminated `{` consumes to the
end of the string; `token.substr(1, token.length() - 2)` then drops the
final character as well (for a lone `{`, `length - 2` underflows to
`npos` in C++ and to `0` here, both giving the empty inner text). -/
def maskGoF : Nat → Nat → List Char → List Char →
    List (List Char × List Char) → List Char × List (List Char × List Char)
| 0, _, pre, rest, toks => (pre ++ rest, toks)
| fuel + 1, cnt, pre, rest, toks =>
    match splitAtCh '{' rest with
    | none => (pre ++ rest, toks)
    | some (a, b) =>
        match splitAtCh '}' b with
        | some (c, d) =>
            let token := '{' :: (c ++ ['}'])
            let mask := maskStr cnt
            let inner := (token.drop 1).take (token.length - 2)
            maskGoF fuel (cnt + 1) (pre ++ a ++ mask) d (toks ++ [(mask, inner)])
        | none =>
            let token := '{' :: b
            let mask := maskStr cnt
            let inner := (token.drop 1).take (token.length - 2)
            (pre ++ a ++ mask, toks ++ [(mask, inner)])

/-- Whole masking stage: masked text plus the `engTokens` mask/original
pairs, in creation order. -/
def maskStage (input : List Char) : List Char × List (List Char × List Char) :=
  maskGoF input.length 1 [] input []

/-! ## Longest-match transliterator (`transliterateSegment`) -/

/-- The `for (int i = rem.size(); i > 0; --i)` prefix search: tries the
prefix of length `i`, then shorter ones.  Returns the produced text, the
number of consumed characters, and the (possibly updated) map — the map
access `charMap_[part]` is the mutating `operator[]`, guarded by `count`. -/
def tryLens (indic symbols : Bool) (cm : CMap) (rem : List Char) :
    Nat → Option (List Char × Nat × CMap)
| 0 => none
| i + 1 =>
    let part := rem.take (i + 1)
    if part.length == 1 && isDigitA (part.headD (Char.ofNat 0)) && !indic then
      some (part, i + 1, cm)
    else if part.length == 1 && !isAlnumA (part.headD (Char.ofNat 0)) && !symbols then
      some (part, i + 1, cm)
    else if (lookupA cm part).isSome then
      let r := mapGet cm part
      some (r.1, i + 1, r.2)
    else tryLens indic symbols cm rem i

/-- The no-match fallback of the inner loop: consume one character, with
the same digit/symbol bypasses, the guarded `charMap_[singleChar]`
access, and raw passthrough otherwise. -/
def fallbackChar (indic symbols : Bool) (cm : CMap) (c : Char) : List Char × CMap :=
  if isDigitA c && !indic then ([c], cm)
  else if !isAlnumA c && !symbols then ([c], cm)
  else if (lookupA cm [c]).isSome then mapGet cm [c]
  else ([c], cm)

/-- The `while (!rem.empty())` consume loop of `transliterateSegment`,
with one fuel unit per iteration (every iteration consumes at least one
character, so `rem.length` fuel always suffices).  When the matched text
is empty (a key mapped to `""`), the C++ falls into the fallback branch
even though `rem` was already shortened, reading `rem[0]` — which is the
null character when `rem` is empty, as `std::string::operator[]` at
`size()` yields `'\0'`. -/
def segLoopF (indic symbols : Bool) : Nat → CMap → List Char → List Char × CMap
| 0, cm, _ => ([], cm)
| _ + 1, cm, [] => ([], cm)
| fuel + 1, cm, c :: rest =>
    let rem := c :: rest
    match tryLens indic symbols cm rem rem.length with
    | some (matched, n, cm') =>
        let rem' := rem.drop n
        if matched.isEmpty then
          let p := fallbackChar indic symbols cm' (rem'.headD (Char.ofNat 0))
          let t := segLoopF indic symbols fuel p.2 (rem'.drop 1)
          (p.1 ++ t.1, t.2)
        else
          let t := segLoopF indic symbols fuel cm' rem'
          (matched ++ t.1, t.2)
    | none =>
        let p := fallbackChar indic symbols cm c
        let t := segLoopF indic symbols fuel p.2 rest
        (p.1 ++ t.1, t.2)

/-- The consume loop at its natural fuel. -/
def segLoop (indic symbols : Bool) (cm : CMap) (rem : List Char) : List Char × CMap :=
  segLoopF indic symbols rem.length cm rem

/-- `Transliteration::Impl::transliterateSegment`: split on `/`, run the
consume loop on each non-empty piece, apply the trailing-halant strip
(output ends in U+094D, original did not end in `\`, original longer than
one character), concatenate. -/
def transliterateSegment (indic symbols : Bool) (cm : CMap) (input : List Char) :
    List Char × CMap :=
  (splitCh '/' input).foldl
    (fun acc sub =>
      if sub.isEmpty then acc
      else
        let t := segLoop indic symbols acc.2 sub
        let subR :=
          if t.1.getLast? == some '्' && !(sub.getLast? == some '\\') && sub.length > 1
          then t.1.dropLast else t.1
        (acc.1 ++ subR, t.2))
    ([], cm)

/-! ## Top-level `transliterate` -/

/-- One whitespace segment of the main loop of `transliterate`: the three
single-character bypasses (digit with Indic numbers off, symbol with
symbol transliteration off, direct `charMap_[segment]` access guarded by
`count`), else the correction pipeline followed by the longest-match
transliterator. -/
def processSegment (cfg : Cfg) (cm : CMap) (seg : List Char) : List Char × CMap :=
  if seg.length == 1 && isDigitA (seg.headD (Char.ofNat 0)) && !cfg.enableIndicNumbers then
    (seg, cm)
  else if seg.length == 1 && !isAlnumA (seg.headD (Char.ofNat 0))
       && !cfg.enableSymbolsTransliteration then
    (seg, cm)
  else if seg.length == 1 && (lookupA cm seg).isSome then mapGet cm seg
  else
    let cleaned := preprocess cfg seg
    transliterateSegment cfg.enableIndicNumbers cfg.enableSymbolsTransliteration cm cleaned

/-- The segment loop of `transliterate`: skip empty segments, re-insert a
single space before every non-first output piece. -/
def segStageGo (cfg : Cfg) : CMap → Bool → List (List Char) → List Char × CMap
| cm, _, [] => ([], cm)
| cm, first, seg :: rest =>
    if seg.isEmpty then segStageGo cfg cm first rest
    else
      let p := processSegment cfg cm seg
      let t := segStageGo cfg p.2 false rest
      ((if first then [] else [' ']) ++ p.1 ++ t.1, t.2)

/-- The replace-all loop `while ((pos = result.find(tm, pos)) != npos)`,
fuelled by one unit per replacement (each replacement removes one
occurrence of a non-empty `pat`, so `res.length` fuel always suffices);
the scan resumes just after the inserted replacement, exactly as
`pos += original.length()` does. -/
def replaceAllF : Nat → List Char → List Char → List Char → List Char
| 0, _, _, res => res
| fuel + 1, pat, rep, res =>
    match splitAtSub pat res with
    | none => res
    | some (a, b) => a ++ rep ++ replaceAllF fuel pat rep b

/-- The replace-all loop at its natural fuel. -/
def replaceAll (pat rep res : List Char) : List Char := replaceAllF res.length pat rep res

/-- The mask-restoration loop of `transliterate`: each mask is itself
transliterated (threading the map state), then all occurrences of the
transliterated mask are replaced by the original literal text.  When the
transliterated mask is EMPTY the C++ loop never terminates
(`find("", pos)` always succeeds); the model returns `none` there. -/
def restoreStage (indic symbols : Bool) :
    CMap → List (List Char × List Char) → List Char → Option (List Char × CMap)
| cm, [], res => some (res, cm)
| cm, (mask, original) :: ts, res =>
    let t := transliterateSegment indic symbols cm mask
    if t.1.isEmpty then none
    else restoreStage indic symbols t.2 ts (replaceAll t.1 original res)

/-- `Transliteration::transliterate`: boundary preprocessing, literal-span
masking, per-segment transliteration, mask restoration.  Returns the
output together with the final `charMap_` state; `none` models the
non-terminating restoration loop. -/
def transliterate (cfg : Cfg) (input : List Char) : Option (List Char × CMap) :=
  let preprocessed := preprocessInput cfg.charMap input
  let m := maskStage preprocessed
  let s := segStageGo cfg cfg.charMap true (splitCh ' ' m.1)
  restoreStage cfg.enableIndicNumbers cfg.enableSymbolsTransliteration s.2 m.2 s.1

/-! ## Validator (`isValidDevanagariWord`) -/

def isDevanagariConsonant (c : Char) : Bool :=
  decide (0x915 ≤ c.toNat ∧ c.toNat ≤ 0x939) || decide (0x958 ≤ c.toNat ∧ c.toNat ≤ 0x95F)

def isHalant (c : Char) : Bool := c.toNat == 0x94D

def isNukta (c : Char) : Bool := c.toNat == 0x93C

def isDependentVowelSign (c : Char) : Bool :=
  decide (0x93E ≤ c.toNat ∧ c.toNat ≤ 0x94C) || decide (0x962 ≤ c.toNat ∧ c.toNat ≤ 0x963)

def isIndependentVowel (c : Char) : Bool := decide (0x904 ≤ c.toNat ∧ c.toNat ≤ 0x914)

def isAnusvaraVisargaChandrabindu (c : Char) : Bool :=
  c.toNat == 0x901 || c.toNat == 0x902 || c.toNat == 0x903

def isAvagraha (c : Char) : Bool := c.toNat == 0x93D

def isZWJorZWNJ (c : Char) : Bool := c.toNat == 0x200C || c.toNat == 0x200D

def isDigitDev (c : Char) : Bool := decide (0x966 ≤ c.toNat ∧ c.toNat ≤ 0x96F)

/-- `isDandaOrPunctuation`, parameterised by ICU's `u_ispunct` (external
Unicode property data). -/
def isDandaOrPunctuation (p : Char → Bool) (c : Char) : Bool :=
  c.toNat == 0x964 || c.toNat == 0x965 || p c

def isAllowedDevanagariChar (c : Char) : Bool :=
  decide (0x900 ≤ c.toNat ∧ c.toNat ≤ 0x97F)
  || decide (0xA8E0 ≤ c.toNat ∧ c.toNat ≤ 0xA8FF)
  || isZWJorZWNJ c

/-- The validator's automaton states (the C++ local `enum State`). -/
inductive DevState where
  | START
  | AFTER_CONSONANT
  | AFTER_HALANT
  | AFTER_INDEPENDENT_VOWEL
  | AFTER_SYLLABLE_WITH_MATRA
  | AFTER_MODIFIER
  | AFTER_AVAGRAHA
deriving DecidableEq

open DevState in
/-- One transition of the validator's state machine: the classification
if-chain of the loop body, `none` meaning `return false`. -/
def devStep (st : DevState) (c : Char) : Option DevState :=
  if isDevanagariConsonant c then
    if st = START ∨ st = AFTER_INDEPENDENT_VOWEL ∨ st = AFTER_SYLLABLE_WITH_MATRA
       ∨ st = AFTER_HALANT ∨ st = AFTER_MODIFIER ∨ st = AFTER_AVAGRAHA
       ∨ st = AFTER_CONSONANT
    then some AFTER_CONSONANT else none
  else if isIndependentVowel c then
    if st = START ∨ st = AFTER_INDEPENDENT_VOWEL ∨ st = AFTER_MODIFIER ∨ st = AFTER_AVAGRAHA
    then some AFTER_INDEPENDENT_VOWEL else none
  else if isHalant c then
    if st = AFTER_CONSONANT then some AFTER_HALANT else none
  else if isNukta c then
    if st = AFTER_CONSONANT then some AFTER_CONSONANT else none
  else if isDependentVowelSign c then
    if st = AFTER_CONSONANT then some AFTER_SYLLABLE_WITH_MATRA else none
  else if isAnusvaraVisargaChandrabindu c then
    if st = AFTER_CONSONANT ∨ st = AFTER_INDEPENDENT_VOWEL ∨ st = AFTER_SYLLABLE_WITH_MATRA
    then some AFTER_MODIFIER else none
  else if isAvagraha c then
    if st = AFTER_CONSONANT ∨ st = AFTER_INDEPENDENT_VOWEL ∨ st = AFTER_SYLLABLE_WITH_MATRA
       ∨ st = AFTER_MODIFIER
    then some AFTER_AVAGRAHA else none
  else if isZWJorZWNJ c then
    if st = AFTER_HALANT then some AFTER_HALANT else none
  else none

/-- The validation loop over the code points, with the allowed-block and
digit/punctuation rejections performed before classification. -/
def devRun (p : Char → Bool) : DevState → List Char → Option DevState
| st, [] => some st
| st, c :: rest =>
    if !isAllowedDevanagariChar c then none
    else if isDigitDev c || isDandaOrPunctuation p c then none
    else
      match devStep st c with
      | some st' => devRun p st' rest
      | none => none

open DevState in
/-- `isValidDevanagariWord`, parameterised by the ICU grapheme-cluster
count `gc` (locale-dependent `BreakIterator` output, external to the
repository) and the ICU `u_ispunct` predicate `p`. -/
def isValidDevanagariWord (gc : List Char → Nat) (p : Char → Bool) (u : List Char) : Bool :=
  if u.isEmpty then false
  else if gc u < 2 then false
  else
    match devRun p START u with
    | none => false
    | some st =>
        if (match u.getLast? with | some lc => isZWJorZWNJ lc | none => false) then false
        else st = AFTER_CONSONANT ∨ st = AFTER_INDEPENDENT_VOWEL
             ∨ st = AFTER_SYLLABLE_WITH_MATRA ∨ st = AFTER_MODIFIER
             ∨ st = AFTER_HALANT ∨ st = AFTER_AVAGRAHA

/-! ## Configuration parsers -/

/-- Backslash unescaping inside `parseMappingsToml`'s `unquote`. -/
def unescTOML : List Char → List Char
| '\\' :: next :: rest =>
    (if next == '\\' then '\\' else if next == 'n' then '\n'
     else if next == 't' then '\t' else next) :: unescTOML rest
| c :: rest => c :: unescTOML rest
| [] => []

/-- The `unquote` lambda of `parseMappingsToml`: strip one pair of
matching single or double quotes, then process escapes. -/
def unquote (s : List Char) : List Char :=
  let s1 :=
    if s.length ≥ 2 && ((s.head? == some '"' && s.getLast? == some '"')
                        || (s.head? == some '\'' && s.getLast? == some '\''))
    then (s.drop 1).dropLast else s
  unescTOML s1

/-- One line of `parseSpecialWordsToml`, acting on the `(section, map)`
state. -/
def parseSpecialLine (st : List Char × CMap) (rawLine : List Char) : List Char × CMap :=
  let line := trimWS rawLine
  if line.isEmpty then st
  else if line.head? == some '#' then st
  else if line.head? == some '[' && line.getLast? == some ']' then
    ((line.drop 1).dropLast, st.2)
  else if st.1 ≠ "specialWords".data then st
  else
    match splitAtCh '=' line with
    | none => st
    | some (k0, v0) =>
        let key := trimWS k0
        let value := trimWS v0
        let value :=
          if value.length ≥ 2 && value.head? == some '"' && value.getLast? == some '"'
          then (value.drop 1).dropLast else value
        (st.1, insertA st.2 key value)

/-- `Transliteration::Impl::parseSpecialWordsToml`. -/
def parseSpecialWordsToml (content : List Char) : CMap :=
  ((splitCh '\n' content).foldl parseSpecialLine ([], [])).2

/-- One line of `parseMappingsToml`, acting on the
`(section, charMap, consonantMap)` state. -/
def parseMappingLine (st : List Char × CMap × CMap) (rawLine : List Char) :
    List Char × CMap × CMap :=
  let (sect, cm, consm) := st
  let line := trimWS rawLine
  if line.isEmpty then st
  else if line.head? == some '#' then st
  else if line.head? == some '[' && line.getLast? == some ']' then
    ((line.drop 1).dropLast, cm, consm)
  else
    match splitAtCh '=' line with
    | none => st
    | some (k0, v0) =>
        let v1 := match splitAtCh '#' v0 with | some (a, _) => a | none => v0
        let key := unquote (trimWS k0)
        let value := unquote (trimWS v1)
        if sect = "charMap".data then (sect, insertA cm key value, consm)
        else if sect = "consonantMap".data then (sect, cm, insertA consm key value)
        else st

/-- The derivation loop over one `consonantMap` entry: the eleven
vowel-suffixed forms plus the bare halanta form, each inserted only when
the key is still absent from `charMap_`. -/
def deriveConso (cm : CMap) (p : List Char × List Char) : CMap :=
  let conso := p.1
  let val := p.2
  let consoMinusA :=
    if conso.length > 1 && conso.getLast? == some 'a' then conso.dropLast else conso
  let ins := fun (m : CMap) (k v : List Char) =>
    if (lookupA m k).isSome then m else insertA m k v
  let cm := ins cm conso val
  let cm := ins cm (conso ++ ['a']) (val ++ ['ा'])
  let cm := ins cm (consoMinusA ++ ['i']) (val ++ ['ि'])
  let cm := ins cm (consoMinusA ++ ['e', 'e']) (val ++ ['ी'])
  let cm := ins cm (consoMinusA ++ ['u']) (val ++ ['ु'])
  let cm := ins cm (consoMinusA ++ ['o', 'o']) (val ++ ['ू'])
  let cm := ins cm (consoMinusA ++ ['r', 'r', 'i']) (val ++ ['ृ'])
  let cm := ins cm (consoMinusA ++ ['e']) (val ++ ['े'])
  let cm := ins cm (consoMinusA ++ ['a', 'i']) (val ++ ['ै'])
  let cm := ins cm (consoMinusA ++ ['o']) (val ++ ['ो'])
  let cm := ins cm (consoMinusA ++ ['a', 'u']) (val ++ ['ौ'])
  ins cm consoMinusA (val ++ ['्'])

/-- `Transliteration::Impl::parseMappingsToml`: the line loop followed by
the consonant-map derivation loop. -/
def parseMappingsToml (content : List Char) : CMap :=
  let (_, cm, consm) := (splitCh '\n' content).foldl parseMappingLine ([], [], [])
  consm.foldl deriveConso cm

/-! ## Concrete configurations used by the closed theorems -/

/-- An engine with empty tables and the default flag values. -/
def cfg0 : Cfg := ⟨[], [], true, true, true, true⟩

/-- An engine whose mapping table sends every fragment of the first mask
token to the empty string (each entry is producible by `mapping.toml`
lines with empty values, which the parser inserts verbatim). -/
def cfgBad : Cfg :=
  ⟨[(['$', '-'], []), (['1'], []), (['-'], []), (['$'], [])], [], true, true, true, true⟩

/-- An engine whose special-words table maps "pani" to itself. -/
def cfgId : Cfg := ⟨[], [("pani".data, "pani".data)], true, true, true, true⟩

/-! # Theorems -/

/-! ## Shared helper lemmas -/

theorem lookupA_insertA (m : CMap) (k v : List Char) :
    lookupA (insertA m k v) k = some v := by
  induction m with
  | nil => simp [insertA, lookupA]
  | cons p rest ih =>
      obtain ⟨k', v'⟩ := p
      by_cases h : (k' == k) = true
      · simp [insertA, h, lookupA]
      · simp only [insertA, h, Bool.false_eq_true, if_false, lookupA]
        simpa [h] using ih

/-! ## C4: a trailing joiner always invalidates -/

/-- C4: for every string whose final code point is ZWJ or ZWNJ,
`isValidDevanagariWord` returns `false` (for any grapheme counter and any
punctuation predicate), even when the automaton consumed the joiner
legally in state `AFTER_HALANT`. -/
theorem trailing_joiner_invalid (gc : List Char → Nat) (p : Char → Bool)
    (u : List Char) (c : Char) (hlast : u.getLast? = some c)
    (hj : isZWJorZWNJ c = true) : isValidDevanagariWord gc p u = false := by
  unfold isValidDevanagariWord
  split
  · rfl
  · split
    · rfl
    · split
      · rfl
      · rw [hlast]
        simp [hj]

/-- C4 witness: the well-formed-conjunct word `क ् ZWNJ` ends in a joiner
and is rejected. -/
theorem trailing_joiner_invalid_witness :
    (['क', '्', '‌'].getLast? = some '‌')
    ∧ isZWJorZWNJ '‌' = true
    ∧ isValidDevanagariWord List.length (fun _ => false) ['क', '्', '‌'] = false :=
  ⟨by decide, by decide,
    trailing_joiner_invalid List.length (fun _ => false) ['क', '्', '‌'] '‌'
      (by decide) (by decide)⟩

/-! ## C5: empty and sub-2-grapheme inputs are rejected -/

/-- C5: `isValidDevanagariWord` returns `false` for the empty string and
for every string whose grapheme-cluster count is below 2, whatever the
(ICU-provided) grapheme counter and punctuation predicate are; in
particular no single-grapheme string is ever accepted. -/
theorem short_word_invalid (gc : List Char → Nat) (p : Char → Bool)
    (u : List Char) (h : u = [] ∨ gc u < 2) :
    isValidDevanagariWord gc p u = false := by
  unfold isValidDevanagariWord
  rcases h with h | h
  · simp [h]
  · split
    · rfl
    · simp [h]

/-- C5 witness: the single-grapheme (single code point) string `क` is
rejected. -/
theorem short_word_invalid_witness :
    (['क'] = [] ∨ List.length ['क'] < 2)
    ∧ isValidDevanagariWord List.length (fun _ => false) ['क'] = false :=
  ⟨Or.inr (by decide),
    short_word_invalid List.length (fun _ => false) ['क'] (Or.inr (by decide))⟩

/-! ## C6: the `n`-before-velar rewrite -/

/-- C6 counterexample: with smart correction enabled and no special-word
match, a segment whose FIRST character is an `n` followed by `k` is NOT
rewritten — `"nk"` stays `"nk"` instead of becoming `"ngk"`, because the
C++ loop requires `i > 0`. -/
theorem ngVelar_first_char_counterexample :
    preprocess cfg0 ['n', 'k'] = ['n', 'k'] ∧ ['n', 'k'] ≠ ['n', 'g', 'k'] := by
  decide

/-- C6 (amended): in the `n`-to-`ng` loop, every case-folded `n`
immediately followed by a case-folded `k` or `g` at a position other than
the first character is rewritten to the literal `ng`; the first character
of the word is exempt (`ngVelarPass` sends it past the scan untouched). -/
theorem ngVelar_rewrite (xs : List Char) (m c : Char) (ys : List Char)
    (hm : toLowerA m = 'n') (hc : toLowerA c = 'k' ∨ toLowerA c = 'g') :
    ngVelarGo (xs ++ m :: c :: ys) = ngVelarGo xs ++ 'n' :: 'g' :: ngVelarGo (c :: ys)
    ∧ ngVelarPass (m :: c :: ys) = m :: ngVelarGo (c :: ys) := by
  have hv : velarNext (c :: ys) = true := by
    rcases hc with h | h <;> simp [velarNext, h]
  constructor
  · induction xs with
    | nil => simp [ngVelarGo, hm, hv]
    | cons a t ih =>
        have hvt : velarNext (t ++ m :: c :: ys) = velarNext t := by
          cases t with
          | nil => simp [velarNext, hm]
          | cons b t' => simp [velarNext]
        by_cases hcond : (toLowerA a == 'n' && velarNext t) = true
        · simp [ngVelarGo, hvt, hcond, ih]
        · simp [ngVelarGo, hvt, hcond, ih]
  · rfl

/-- C6 witness: in `"ank"` the `n` is at position 1 and is rewritten; the
end-to-end pipeline indeed sends `"ank"` to `"angk"`. -/
theorem ngVelar_rewrite_witness :
    toLowerA 'n' = 'n' ∧ toLowerA 'k' = 'k'
    ∧ ngVelarGo (['a'] ++ 'n' :: 'k' :: []) = ngVelarGo ['a'] ++ 'n' :: 'g' :: ngVelarGo ['k']
    ∧ applySmartCorrection "ank".data = "angk".data :=
  ⟨by decide, by decide,
    (ngVelar_rewrite ['a'] 'n' 'k' [] (by decide) (Or.inl (by decide))).1, by decide⟩

/-! ## C7: the trailing-`i` to `ee` rewrite -/

/-- C7 counterexample: a segment of length 2 ending in `i` after a
non-vowel (and not ending in `rri`) is NOT rewritten — `"ki"` stays
`"ki"` instead of becoming `"kee"`, because the whole heuristic block is
guarded by `word.length() > 3`. -/
theorem trailing_i_short_counterexample :
    preprocess cfg0 ['k', 'i'] = ['k', 'i'] ∧ ['k', 'i'] ≠ ['k', 'e', 'e'] := by
  decide

/-- Reducing `smartStage1` on a word of length at least 4. -/
theorem smartStage1_eq_core (w : List Char) (e0 e1 e2 e3 : Char) (r : List Char)
    (hw : w.reverse = e0 :: e1 :: e2 :: e3 :: r) :
    smartStage1 w = smartStage1Core w e0 e1 e2 e3 := by
  unfold smartStage1
  rw [hw]

/-- C7 (amended): for segments of length GREATER THAN 3 whose last
character case-folds to `i`, whose second-to-last character is a
non-vowel, and which do not end in `rri`, the length-guarded heuristic
block replaces the trailing `i` by `ee`; shorter segments are exempt. -/
theorem trailing_i_to_ee (w : List Char) (e0 e1 e2 e3 : Char) (r : List Char)
    (hw : w.reverse = e0 :: e1 :: e2 :: e3 :: r)
    (h0 : toLowerA e0 = 'i')
    (h1 : isVowel (toLowerA e1) = false)
    (h2 : ¬(toLowerA e1 = 'r' ∧ toLowerA e2 = 'r')) :
    smartStage1 w = w.dropLast ++ ['e', 'e'] := by
  rw [smartStage1_eq_core w e0 e1 e2 e3 r hw]
  have hrr : (toLowerA e1 == 'r' && toLowerA e2 == 'r') = false := by
    by_cases ha : toLowerA e1 = 'r'
    · by_cases hb : toLowerA e2 = 'r'
      · exact absurd ⟨ha, hb⟩ h2
      · simp [hb]
    · simp [ha]
  unfold smartStage1Core
  simp [h0, h1, hrr]

/-- C7 witness: `"pani"` (length 4) becomes the intermediate `"panee"`,
also through the full smart-correction pipeline. -/
theorem trailing_i_to_ee_witness :
    "pani".data.reverse = 'i' :: 'n' :: 'a' :: 'p' :: []
    ∧ toLowerA 'i' = 'i' ∧ isVowel (toLowerA 'n') = false
    ∧ smartStage1 "pani".data = "pani".data.dropLast ++ ['e', 'e']
    ∧ applySmartCorrection "pani".data = "panee".data :=
  ⟨by decide, by decide, by decide,
    trailing_i_to_ee "pani".data 'i' 'n' 'a' 'p' [] (by decide) (by decide) (by decide)
      (by decide), by decide⟩

/-! ## C8: special-word substitution skips smart correction -/

/-- C8 counterexample: for a SpecialWords entry whose replacement value
is identical to the key, smart correction is NOT skipped: with
`"pani" -> "pani"` registered, the segment `"pani"` comes out as the
smart-corrected `"panee"`, not as the mapped value `"pani"`. -/
theorem special_word_identity_counterexample :
    lookupA cfgId.specialWords "pani".data = some "pani".data
    ∧ preprocess cfgId "pani".data = "panee".data
    ∧ "panee".data ≠ "pani".data := by
  decide

/-- C8 (amended): if auto-correct is enabled and the whole segment
matches a SpecialWords key whose replacement value DIFFERS from the
segment, the segment is replaced by that value and smart correction is
skipped entirely; entries whose value equals the key fall through to
smart correction. -/
theorem special_word_skip (cfg : Cfg) (w v : List Char)
    (hA : cfg.enableAutoCorrect = true)
    (hl : lookupA cfg.specialWords w = some v) (hne : v ≠ w) :
    preprocess cfg w = v := by
  unfold preprocess applyAutoCorrection
  rw [hA, hl]
  simp [hne]

/-- C8 witness: with `"pani" -> "paani"` registered, the segment is
substituted and smart correction does not run. -/
theorem special_word_skip_witness :
    lookupA (Cfg.specialWords ⟨[], [("pani".data, "paani".data)], true, true, true, true⟩)
      "pani".data = some "paani".data
    ∧ "paani".data ≠ "pani".data
    ∧ preprocess ⟨[], [("pani".data, "paani".data)], true, true, true, true⟩ "pani".data
      = "paani".data :=
  ⟨by decide, by decide,
    special_word_skip ⟨[], [("pani".data, "paani".data)], true, true, true, true⟩
      "pani".data "paani".data rfl (by decide) (by decide)⟩

/-! ## C9: empty / unterminated values in the config parsers -/

/-- C9 counterexample: a `key =` line with an empty value, and a
`key = "...` line with an unterminated quote, are NOT ignored by either
parser: the key is inserted (with the empty value, resp. with the raw
value keeping its opening quote). -/
theorem empty_value_inserted_counterexample :
    lookupA (parseSpecialWordsToml ("[specialWords]\nfoo =".data)) "foo".data = some []
    ∧ lookupA (parseSpecialWordsToml ("[specialWords]\nbar = \"abc".data)) "bar".data
      = some ('"' :: "abc".data)
    ∧ lookupA (parseMappingsToml ("[charMap]\nk =".data)) "k".data = some [] := by
  decide

theorem trimStart_append_eq (k : List Char) (h : trimStart k = k) :
    trimStart (k ++ ['=']) = k ++ ['='] := by
  cases k with
  | nil => decide
  | cons a t =>
      have ha : isWS a = false := by
        by_contra hc
        rw [Bool.not_eq_false] at hc
        rw [trimStart, List.dropWhile_cons, if_pos hc] at h
        have hlen := congrArg List.length h
        have hle := (List.dropWhile_sublist (p := isWS) (l := t)).length_le
        simp at hlen
        omega
      simp [trimStart, List.dropWhile_cons, ha]

theorem trimEnd_append_eq (k : List Char) :
    trimEnd (k ++ ['=']) = k ++ ['='] := by
  simp [trimEnd, List.dropWhile_cons, isWS]

theorem splitAtCh_append_eq (k : List Char) (h : '=' ∉ k) :
    splitAtCh '=' (k ++ ['=']) = some (k, []) := by
  induction k with
  | nil => decide
  | cons a t ih =>
      simp only [List.mem_cons, not_or] at h
      have ha : (a == '=') = false := by
        have hne : a ≠ '=' := fun hh => h.1 hh.symm
        simp [hne]
      simp only [List.cons_append, splitAtCh, ha, Bool.false_eq_true, if_false,
        List.append_eq]
      rw [ih h.2]

/-- C9 (amended): a `key =` line with an empty value is NOT ignored by
`parseSpecialWordsToml`: in the `specialWords` section it inserts the key
with the empty string as its value (for any key free of `=`, surrounding
whitespace and leading `#`/section syntax). -/
theorem empty_value_inserted (sw : CMap) (k : List Char)
    (hts : trimStart k = k) (hte : trimEnd k = k)
    (hmem : '=' ∉ k) (hh : k.head? ≠ some '#') :
    parseSpecialLine ("specialWords".data, sw) (k ++ ['='])
      = ("specialWords".data, insertA sw k [])
    ∧ lookupA (insertA sw k []) k = some [] := by
  refine ⟨?_, lookupA_insertA sw k []⟩
  have hline : trimWS (k ++ ['=']) = k ++ ['='] := by
    rw [trimWS, trimStart_append_eq k hts, trimEnd_append_eq k]
  have hkey : trimWS k = k := by rw [trimWS, hts, hte]
  have hemp : (k ++ ['=']).isEmpty = false := by cases k <;> simp
  have hhash : ((k ++ ['=']).head? == some '#') = false := by
    cases k with
    | nil => decide
    | cons a t =>
        have : a ≠ '#' := by simpa using hh
        simp [this]
  have hbr : ((k ++ ['=']).getLast? == some ']') = false := by
    rw [List.getLast?_concat]
    decide
  have hnilt : trimWS ([] : List Char) = [] := by decide
  unfold parseSpecialLine
  rw [hline]
  simp only [hemp, Bool.false_eq_true, if_false, hhash, hbr, Bool.and_false,
    if_neg (by simp : ¬ ("specialWords".data ≠ "specialWords".data)),
    splitAtCh_append_eq k hmem]
  simp [hkey, hnilt]

/-- C9 witness: `foo =` inserts `foo` with the empty value. -/
theorem empty_value_inserted_witness :
    trimStart "foo".data = "foo".data ∧ '=' ∉ "foo".data
    ∧ parseSpecialLine ("specialWords".data, []) ("foo".data ++ ['='])
      = ("specialWords".data, insertA [] "foo".data [])
    ∧ lookupA (insertA [] "foo".data []) "foo".data = some [] :=
  ⟨by decide, by decide,
    (empty_value_inserted [] "foo".data (by decide) (by decide) (by decide) (by decide)).1,
    (empty_value_inserted [] "foo".data (by decide) (by decide) (by decide) (by decide)).2⟩

/-! ## C3: greedy longest-match precedence -/

/-- C3: the prefix search tries the longest length first, so when both
`"ka"` and `"k"` are registered keys the two-character key wins: the
consume loop on `"ka"` emits exactly the value mapped to `"ka"` (for any
flags and any non-empty mapped value), never `"k"`'s value followed by
`"a"`'s. -/
theorem longest_match_ka (indic symbols : Bool) (cm : CMap) (v2 v1 : List Char)
    (h2 : lookupA cm ['k', 'a'] = some v2) (h1 : lookupA cm ['k'] = some v1)
    (hne : v2 ≠ []) :
    segLoop indic symbols cm ['k', 'a'] = (v2, cm) := by
  have hne' : v2.isEmpty = false := by cases v2 with
    | nil => exact absurd rfl hne
    | cons a t => rfl
  unfold segLoop segLoopF
  simp only [List.length_cons, List.length_nil]
  unfold tryLens
  simp [h2, mapGet, hne', segLoopF]

/-- C3 witness: with `"ka" -> X` and `"k" -> Y` registered, `"ka"`
resolves to `X`. -/
theorem longest_match_ka_witness :
    lookupA [(['k', 'a'], ['X']), (['k'], ['Y'])] ['k', 'a'] = some ['X']
    ∧ lookupA [(['k', 'a'], ['X']), (['k'], ['Y'])] ['k'] = some ['Y']
    ∧ segLoop true true [(['k', 'a'], ['X']), (['k'], ['Y'])] ['k', 'a']
      = (['X'], [(['k', 'a'], ['X']), (['k'], ['Y'])]) :=
  ⟨by decide, by decide,
    longest_match_ka true true [(['k', 'a'], ['X']), (['k'], ['Y'])] ['X'] ['Y']
      (by decide) (by decide) (by decide)⟩

/-! ## State-preservation lemmas: every `charMap_[...]` access in the
transliteration path is guarded by `count`, so the guarded `operator[]`
never inserts and the map comes back unchanged. -/

theorem mapGet_snd_of_isSome (cm : CMap) (k : List Char)
    (h : (lookupA cm k).isSome = true) : (mapGet cm k).2 = cm := by
  obtain ⟨v, hv⟩ := Option.isSome_iff_exists.mp h
  simp [mapGet, hv]

theorem tryLens_snd (indic symbols : Bool) (cm : CMap) (rem : List Char) :
    ∀ j m n cm', tryLens indic symbols cm rem j = some (m, n, cm') → cm' = cm := by
  intro j
  induction j with
  | zero => intro m n cm' h; simp [tryLens] at h
  | succ i ih =>
      intro m n cm' h
      unfold tryLens at h
      dsimp only at h
      split at h
      · injection h with h'; injection h' with h1 h2; injection h2 with h3 h4
        exact h4.symm
      · split at h
        · injection h with h'; injection h' with h1 h2; injection h2 with h3 h4
          exact h4.symm
        · split at h
          · rename_i hsome
            injection h with h'; injection h' with h1 h2; injection h2 with h3 h4
            rw [← h4]
            exact mapGet_snd_of_isSome cm _ hsome
          · exact ih m n cm' h

theorem fallbackChar_snd (indic symbols : Bool) (cm : CMap) (c : Char) :
    (fallbackChar indic symbols cm c).2 = cm := by
  unfold fallbackChar
  split
  · rfl
  · split
    · rfl
    · split
      · rename_i hsome
        exact mapGet_snd_of_isSome cm _ hsome
      · rfl

theorem segLoopF_snd (indic symbols : Bool) :
    ∀ fuel cm rem, (segLoopF indic symbols fuel cm rem).2 = cm := by
  intro fuel
  induction fuel with
  | zero => intro cm rem; rfl
  | succ f ih =>
      intro cm rem
      cases rem with
      | nil => rfl
      | cons c rest =>
          unfold segLoopF
          cases htl : tryLens indic symbols cm (c :: rest) (c :: rest).length with
          | none =>
              simp only [htl]
              rw [ih, fallbackChar_snd]
          | some trip =>
              obtain ⟨m, n, cm'⟩ := trip
              have hcm' : cm' = cm := tryLens_snd indic symbols cm (c :: rest) _ m n cm' htl
              simp only [htl]
              by_cases hm : m.isEmpty = true
              · simp only [hm, if_true]
                rw [ih, fallbackChar_snd, hcm']
              · simp only [hm, Bool.false_eq_true, if_false]
                rw [ih, hcm']

theorem segLoop_snd (indic symbols : Bool) (cm : CMap) (rem : List Char) :
    (segLoop indic symbols cm rem).2 = cm :=
  segLoopF_snd indic symbols rem.length cm rem

theorem foldl_snd_invariant {α β γ : Type} (f : β × γ → α → β × γ)
    (hf : ∀ acc a, (f acc a).2 = acc.2) :
    ∀ (l : List α) (acc : β × γ), (l.foldl f acc).2 = acc.2 := by
  intro l
  induction l with
  | nil => intro acc; rfl
  | cons x xs ih => intro acc; rw [List.foldl_cons, ih, hf]

theorem transliterateSegment_snd (indic symbols : Bool) (cm : CMap) (input : List Char) :
    (transliterateSegment indic symbols cm input).2 = cm := by
  unfold transliterateSegment
  exact foldl_snd_invariant _
    (fun acc sub => by
      by_cases h : sub.isEmpty = true
      · simp [h]
      · simp only [h, Bool.false_eq_true, if_false]
        exact segLoop_snd indic symbols acc.2 sub)
    (splitCh '/' input) ([], cm)

theorem processSegment_snd (cfg : Cfg) (cm : CMap) (seg : List Char) :
    (processSegment cfg cm seg).2 = cm := by
  unfold processSegment
  split
  · rfl
  · split
    · rfl
    · split
      · rename_i hcond
        have hsome : (lookupA cm seg).isSome = true := by
          simp only [Bool.and_eq_true] at hcond
          exact hcond.2
        exact mapGet_snd_of_isSome cm seg hsome
      · exact transliterateSegment_snd _ _ cm _

theorem segStageGo_snd (cfg : Cfg) :
    ∀ segs cm first, (segStageGo cfg cm first segs).2 = cm := by
  intro segs
  induction segs with
  | nil => intro cm first; rfl
  | cons seg rest ih =>
      intro cm first
      unfold segStageGo
      by_cases h : seg.isEmpty = true
      · simp only [h, if_true]
        exact ih cm first
      · simp only [h, Bool.false_eq_true, if_false]
        rw [ih, processSegment_snd]

theorem restoreStage_snd (indic symbols : Bool) :
    ∀ toks cm res r cm',
      restoreStage indic symbols cm toks res = some (r, cm') → cm' = cm := by
  intro toks
  induction toks with
  | nil =>
      intro cm res r cm' h
      injection h with h'; injection h' with h1 h2
      exact h2.symm
  | cons p ts ih =>
      intro cm res r cm' h
      obtain ⟨mask, original⟩ := p
      unfold restoreStage at h
      dsimp only at h
      split at h
      · exact absurd h (by simp)
      · have := ih _ _ r cm' h
        rw [this, transliterateSegment_snd]

/-! ## C10: `transliterate` does not modify the engine state -/

/-- C10: a `transliterate` call leaves the mapping table unchanged (every
`charMap_[...]` access is guarded by `count`, so the inserting
`operator[]` never fires; `specialWords_` and the four flags are only
read), and consequently a second call on the resulting state with the
same input returns the identical output. -/
theorem transliterate_state (cfg : Cfg) (input : List Char) (r : List Char) (cm' : CMap)
    (h : transliterate cfg input = some (r, cm')) :
    cm' = cfg.charMap
    ∧ transliterate
        ⟨cm', cfg.specialWords, cfg.enableSmartCorrection, cfg.enableAutoCorrect,
         cfg.enableIndicNumbers, cfg.enableSymbolsTransliteration⟩ input
      = some (r, cm') := by
  have hcm : cm' = cfg.charMap := by
    have h1 := restoreStage_snd cfg.enableIndicNumbers cfg.enableSymbolsTransliteration
      _ _ _ r cm' h
    rw [h1, segStageGo_snd]
  refine ⟨hcm, ?_⟩
  subst hcm
  exact h

/-- C10 witness: a concrete run returns the state unchanged, and re-running
on that state reproduces the output. -/
theorem transliterate_state_witness :
    transliterate cfg0 "ab".data = some ("ab".data, [])
    ∧ ([] : CMap) = cfg0.charMap
    ∧ transliterate
        ⟨[], cfg0.specialWords, cfg0.enableSmartCorrection, cfg0.enableAutoCorrect,
         cfg0.enableIndicNumbers, cfg0.enableSymbolsTransliteration⟩ "ab".data
      = some ("ab".data, []) := by
  have h : transliterate cfg0 "ab".data = some ("ab".data, []) := by decide
  have hs := transliterate_state cfg0 "ab".data "ab".data [] h
  exact ⟨h, hs.1, hs.2⟩

/-! ## C1: totality and unmapped-character passthrough -/

/-- C1 counterexample: `transliterate` is NOT total.  With a mapping
table that sends every fragment of the mask token `$-1-$` to the empty
string (each entry producible from `mapping.toml` key lines with empty
values), the mask transliterates to the empty string, and on the input
`{x}` the C++ restoration loop `find("", pos)`/`replace` never
terminates; the model returns `none` there. -/
theorem transliterate_diverges_counterexample :
    transliterate cfgBad ('{' :: 'x' :: ['}']) = none := by decide

theorem tryLens_none_down (indic symbols : Bool) (cm : CMap) (rem : List Char)
    (j : Nat) (h : tryLens indic symbols cm rem (j + 1) = none) :
    tryLens indic symbols cm rem j = none := by
  unfold tryLens at h
  dsimp only at h
  split at h
  · exact absurd h (by simp)
  · split at h
    · exact absurd h (by simp)
    · split at h
      · exact absurd h (by simp)
      · exact h

theorem tryLens_none_one (indic symbols : Bool) (cm : CMap) (rem : List Char) :
    ∀ k, 1 ≤ k → tryLens indic symbols cm rem k = none →
      tryLens indic symbols cm rem 1 = none := by
  intro k
  induction k with
  | zero => intro hk; omega
  | succ i ih =>
      intro _ h
      cases i with
      | zero => exact h
      | succ i' =>
          exact ih (by omega) (tryLens_none_down indic symbols cm rem (i' + 1) h)

theorem fallbackChar_of_none (indic symbols : Bool) (cm : CMap) (c : Char)
    (rest : List Char)
    (h : tryLens indic symbols cm (c :: rest) 1 = none) :
    fallbackChar indic symbols cm c = ([c], cm) := by
  unfold tryLens at h
  dsimp only at h
  simp only [List.take_succ_cons, List.take_zero, List.length_cons, List.length_nil,
    Nat.zero_add, List.headD_cons] at h
  split at h
  · exact absurd h (by simp)
  · split at h
    · exact absurd h (by simp)
    · split at h
      · exact absurd h (by simp)
      · rename_i h1 h2 h3
        have h1' : ¬ (isDigitA c && !indic) = true := fun hx => h1 (by simp [hx])
        have h2' : ¬ (!isAlnumA c && !symbols) = true := fun hx => h2 (by simp [hx])
        unfold fallbackChar
        rw [if_neg h1', if_neg h2', if_neg h3]

theorem restoreStage_total (indic symbols : Bool) (cm : CMap) :
    ∀ (toks : List (List Char × List Char)) (res : List Char),
      (∀ mk o, (mk, o) ∈ toks → (transliterateSegment indic symbols cm mk).1 ≠ []) →
      (restoreStage indic symbols cm toks res).isSome = true := by
  intro toks
  induction toks with
  | nil => intro res _; rfl
  | cons p ts ih =>
      intro res hyp
      obtain ⟨mask, original⟩ := p
      have hne : (transliterateSegment indic symbols cm mask).1 ≠ [] :=
        hyp mask original (List.mem_cons_self _ _)
      have hemp : (transliterateSegment indic symbols cm mask).1.isEmpty = false := by
        cases hx : (transliterateSegment indic symbols cm mask).1 with
        | nil => exact absurd hx hne
        | cons a t => rfl
      unfold restoreStage
      dsimp only
      rw [hemp]
      simp only [Bool.false_eq_true, if_false]
      rw [transliterateSegment_snd]
      exact ih _ (fun mk o hm => hyp mk o (List.mem_cons_of_mem _ hm))

/-- C1 (amended): `transliterate` returns a result for every input
PROVIDED every generated mask token transliterates to a non-empty string
(true in particular whenever no mapping value is empty; the
counterexample shows the restoration loop diverges otherwise); and in
the consume loop, a character at which no key and no bypass applies is
passed through to the output unchanged (and the table is untouched). -/
theorem transliterate_total_and_passthrough :
    (∀ (cfg : Cfg) (input : List Char),
      (∀ mk o, (mk, o) ∈ (maskStage (preprocessInput cfg.charMap input)).2 →
        (transliterateSegment cfg.enableIndicNumbers cfg.enableSymbolsTransliteration
          cfg.charMap mk).1 ≠ []) →
      (transliterate cfg input).isSome = true)
    ∧ (∀ (indic symbols : Bool) (cm : CMap) (c : Char) (rest : List Char),
        tryLens indic symbols cm (c :: rest) (c :: rest).length = none →
        segLoop indic symbols cm (c :: rest)
          = (c :: (segLoop indic symbols cm rest).1, cm)) := by
  constructor
  · intro cfg input hyp
    unfold transliterate
    dsimp only
    rw [segStageGo_snd]
    exact restoreStage_total _ _ _ _ _ hyp
  · intro indic symbols cm c rest h
    have h1 : tryLens indic symbols cm (c :: rest) 1 = none :=
      tryLens_none_one indic symbols cm (c :: rest) (c :: rest).length
        (by simp) h
    have hf := fallbackChar_of_none indic symbols cm c rest h1
    simp only [List.length_cons] at h
    unfold segLoop
    simp only [List.length_cons]
    conv_lhs => unfold segLoopF
    dsimp only
    simp only [List.length_cons]
    rw [h, hf]
    dsimp only
    rw [segLoopF_snd]
    simp

/-- C1 witness: an input with no mask tokens satisfies the totality side
condition, and with an empty table every character passes through. -/
theorem transliterate_total_witness :
    (transliterate cfg0 "ab".data).isSome = true
    ∧ tryLens true true [] ['a', 'b'] (['a', 'b'] : List Char).length = none
    ∧ segLoop true true [] ['a', 'b'] = ('a' :: (segLoop true true [] ['b']).1, []) := by
  refine ⟨?_, by decide, ?_⟩
  · apply transliterate_total_and_passthrough.1
    intro mk o hmem
    have hz : (maskStage (preprocessInput cfg0.charMap "ab".data)).2 = [] := by decide
    rw [hz] at hmem
    exact absurd hmem (List.not_mem_nil _)
  · exact transliterate_total_and_passthrough.2 true true [] 'a' ['b'] (by decide)

/-! ## C2: literal-span restoration -/

/-- C2 counterexample: a balanced span is NOT always restored
byte-for-byte.  `preprocessInput` runs BEFORE masking and inserts a
boundary space before the `.` inside `{a.b}`, so the restored text is
`a .b`: the original inner text `a.b` does not occur in the output at
all. -/
theorem mask_restoration_counterexample :
    transliterate cfg0 ('{' :: "a.b".data ++ ['}']) = some ("a .b".data, [])
    ∧ containsSub "a.b".data "a .b".data = false := by decide

theorem splitAtSub_eq_append (pat : List Char) :
    ∀ l a b, splitAtSub pat l = some (a, b) → l = a ++ pat ++ b := by
  intro l
  induction l with
  | nil =>
      intro a b h
      unfold splitAtSub at h
      split at h
      · rename_i hpre
        have hp : pat = [] := by
          have := List.isPrefixOf_iff_prefix.mp hpre
          simpa using this
        injection h with h'
        injection h' with h1 h2
        simp [← h1, ← h2, hp]
      · exact absurd h (by simp)
  | cons c rest ih =>
      intro a b h
      unfold splitAtSub at h
      split at h
      · rename_i hpre
        obtain ⟨t, ht⟩ := List.isPrefixOf_iff_prefix.mp hpre
        injection h with h'
        injection h' with h1 h2
        rw [← h1, ← h2, ← ht, List.nil_append, List.drop_left]
      · cases hs : splitAtSub pat rest with
        | none => rw [hs] at h; exact absurd h (by simp)
        | some p =>
            obtain ⟨a', b'⟩ := p
            rw [hs] at h
            injection h with h'
            injection h' with h1 h2
            rw [← h1, ← h2, List.cons_append, List.cons_append]
            rw [ih a' b' hs]

theorem splitAtSub_len (pat : List Char) (hp : pat ≠ []) (l a b : List Char)
    (h : splitAtSub pat l = some (a, b)) : b.length < l.length := by
  have he := splitAtSub_eq_append pat l a b h
  have hl : 1 ≤ pat.length := List.length_pos.mpr hp
  rw [he]
  simp only [List.length_append]
  omega

theorem splitAtSub_nil_none (pat : List Char) (h : pat ≠ []) :
    splitAtSub pat [] = none := by
  cases pat with
  | nil => exact absurd rfl h
  | cons p ps => rfl

theorem replaceAllF_nil (pat rep : List Char) (h : pat ≠ []) :
    ∀ f, replaceAllF f pat rep [] = [] := by
  intro f
  cases f with
  | zero => rfl
  | succ f' =>
      unfold replaceAllF
      rw [splitAtSub_nil_none pat h]

theorem replaceAllF_congr (pat rep : List Char) (hp : pat ≠ []) :
    ∀ n res f g, res.length ≤ n → res.length ≤ f → res.length ≤ g →
      replaceAllF f pat rep res = replaceAllF g pat rep res := by
  intro n
  induction n with
  | zero =>
      intro res f g hn _ _
      have hres : res = [] := List.length_eq_zero.mp (Nat.le_zero.mp hn)
      subst hres
      rw [replaceAllF_nil pat rep hp f, replaceAllF_nil pat rep hp g]
  | succ m ih =>
      intro res f g hn hf hg
      cases f with
      | zero =>
          have hres : res = [] := List.length_eq_zero.mp (Nat.le_zero.mp hf)
          subst hres
          rw [replaceAllF_nil pat rep hp 0, replaceAllF_nil pat rep hp g]
      | succ f' =>
          cases g with
          | zero =>
              have hres : res = [] := List.length_eq_zero.mp (Nat.le_zero.mp hg)
              subst hres
              rw [replaceAllF_nil pat rep hp (f' + 1), replaceAllF_nil pat rep hp 0]
          | succ g' =>
              unfold replaceAllF
              cases hs : splitAtSub pat res with
              | none => rfl
              | some p =>
                  obtain ⟨a, b⟩ := p
                  have hb : b.length < res.length := splitAtSub_len pat hp res a b hs
                  dsimp only
                  rw [ih b f' g' (by omega) (by omega) (by omega)]

theorem replaceAll_step (pat rep res a b : List Char) (hp : pat ≠ [])
    (hs : splitAtSub pat res = some (a, b)) :
    replaceAll pat rep res = a ++ rep ++ replaceAll pat rep b := by
  have hb : b.length < res.length := splitAtSub_len pat hp res a b hs
  obtain ⟨k, hk⟩ : ∃ k, res.length = k + 1 := ⟨res.length - 1, by omega⟩
  show replaceAllF res.length pat rep res = a ++ rep ++ replaceAllF b.length pat rep b
  rw [hk]
  conv_lhs => unfold replaceAllF
  rw [hs]
  dsimp only
  rw [replaceAllF_congr pat rep hp k b k b.length (by omega) (by omega) (by omega)]

theorem replaceAll_of_none (pat rep res : List Char)
    (hs : splitAtSub pat res = none) : replaceAll pat rep res = res := by
  unfold replaceAll
  cases hr : res.length with
  | zero => rfl
  | succ k =>
      unfold replaceAllF
      rw [hs]

/-- C2 (amended): a balanced span is restored with its text as adjusted
by the input preprocessing (which may insert boundary spaces inside the
span); when preprocessing leaves the span unchanged — as in
`hello {DO NOT TOUCH} world` — restoration is byte-for-byte.  The
replace-all loop replaces ALL occurrences of the transliterated mask,
not just the first. -/
theorem mask_restoration :
    transliterate cfg0 ("hello ".data ++ '{' :: "DO NOT TOUCH".data ++ '}' :: " world".data)
      = some ("hello DO NOT TOUCH world".data, [])
    ∧ (∀ (pat rep a b c : List Char), pat ≠ [] →
        splitAtSub pat (a ++ pat ++ (b ++ pat ++ c)) = some (a, b ++ pat ++ c) →
        splitAtSub pat (b ++ pat ++ c) = some (b, c) →
        splitAtSub pat c = none →
        replaceAll pat rep (a ++ pat ++ (b ++ pat ++ c)) = a ++ rep ++ (b ++ rep ++ c)) := by
  constructor
  · decide
  · intro pat rep a b c hp h1 h2 h3
    rw [replaceAll_step pat rep _ a (b ++ pat ++ c) hp h1,
        replaceAll_step pat rep _ b c hp h2,
        replaceAll_of_none pat rep c h3]

/-- C2 witness: both occurrences of the pattern are replaced. -/
theorem mask_restoration_witness :
    splitAtSub ['$'] ("x".data ++ ['$'] ++ ("y".data ++ ['$'] ++ "z".data))
      = some ("x".data, "y".data ++ ['$'] ++ "z".data)
    ∧ replaceAll ['$'] "R".data ("x".data ++ ['$'] ++ ("y".data ++ ['$'] ++ "z".data))
      = "x".data ++ "R".data ++ ("y".data ++ "R".data ++ "z".data) :=
  ⟨by decide,
    mask_restoration.2 ['$'] "R".data "x".data "y".data "z".data (by decide)
      (by decide) (by decide) (by decide)⟩

end Lekhika
